import Mathlib

/-!
Verification of `ThetaRhoMeanPeakSegSearch::segment`
(src/SonarClassifier/Segmentation/SegmentSearcher/ThetaRhoMeanPeakSegSearch.cpp).

The per-beam peak scan (lines 104-193) is embedded as an explicit state
machine over the sequence of sampled bin intensities.  Intensities come from
`img16bits.at<ushort>`, hence are natural numbers; the running sum
`ACCIntensity` is the sum of the window contents and therefore also a natural
number, so C++ `int` division coincides with `Nat` division.  Heights
(`peakHeight = binI - meanIntensity`) can be negative and are `Int`.

Ghost fields (`runHeights`, `runStart` in the state, `closeMean`,
`runHeights`, `runStart` in the record) are pure instrumentation: they record
the heights of the bins of the current peak run, the bin index at which the
run started, and the background mean at the bin closing the run.  They do not
influence any operational field.

The beam geometry (lines 95-102) is float arithmetic; the scan is embedded
over the abstract per-beam intensity sequence, and the position arithmetic
`binPos += beamDir` / `binStartPos + beamDir * maxHBin` is modelled over
integer vectors by its step multiplier (exact for axis-aligned beams).

The external collaborators (`m_seg` mask/pool, `m_extractor` region growth,
lines 195-234) are modelled by an explicit record of functions threaded
through the extraction loop.
-/

namespace ThetaRho

/-- Configuration members of `ThetaRhoMeanPeakSegSearch` used by `segment`
(the float members `bearing` and `sonVerticalPosition` only enter the
abstracted geometry). Defaults: nBeams=720, startBin=20, Hmin=110,
minSampleSize=10, meanWindowSize=5. -/
structure Config where
  nBeams : Nat
  startBin : Nat
  Hmin : Int
  minSampleSize : Nat
  meanWindowSize : Nat
  deriving Repr, DecidableEq

/-- One emitted peak record.  Operational fields: `threshold` (first member
of the `pair<int,unsigned>` pushed into `peaks`) and `maxHBin` (the bin-step
multiplier of the stored `peakPosition = binStartPos + beamDir * maxHBin`).
`closeMean`, `runHeights` and `runStart` are ghost instrumentation. -/
structure PeakRec where
  threshold : Int
  maxHBin : Int
  closeMean : Nat
  runHeights : List Int
  runStart : Nat
  deriving Repr, DecidableEq

/-- The per-beam scan state: `window`/`acc` model `lastBins`/`ACCIntensity`
(window front = oldest element), the four extremum fields model
`maxHeight`/`maxHBin`/`minHeight`/`minHBin`, `onPeak` the `onPeak` flag.
`runHeights` and `runStart` are ghost instrumentation. -/
structure ScanState where
  window : List Nat
  acc : Nat
  maxHeight : Int
  maxHBin : Int
  minHeight : Int
  minHBin : Int
  onPeak : Bool
  runHeights : List Int
  runStart : Nat
  deriving Repr, DecidableEq

/-- `meanIntensity`: `ACCIntensity/lastBins.size()` when the window is
nonempty, else 0 (lines 119-124). -/
def meanOf (s : ScanState) : Nat :=
  if s.window.length = 0 then 0 else s.acc / s.window.length

/-- `peakHeight = binI - meanIntensity` (line 127). -/
def peakHeightOf (s : ScanState) (binI : Nat) : Int :=
  (binI : Int) - (meanOf s : Int)

/-- The window update of lines 172-183: performed only when `onPeak` is
false after the branch; evicts the oldest entry when the window already
holds `meanWindowSize` elements, then appends the current intensity.
(The `W = 0` eviction from an empty queue calls `CircularQueue::front` on an
empty queue in the source; that configuration is not exercised here and the
empty case is modelled as a plain append.) -/
def pushWindow (W : Nat) (binI : Nat) (s : ScanState) : ScanState :=
  let wa : List Nat × Nat :=
    if W ≤ s.window.length then
      match s.window with
      | [] => ([binI], s.acc + binI)
      | f :: restW => (restW ++ [binI], s.acc - f + binI)
    else (s.window ++ [binI], s.acc + binI)
  { s with window := wa.1, acc := wa.2 }

/-- One iteration of the bin loop (lines 112-192) for bin index `bin` with
sampled intensity `binI`: the `peakHeight > Hmin` cascade with run entry,
strict max-then-min extremum update, emission of the record on run close
(`threshold = meanIntensity + minHeight`, position multiplier `maxHBin`,
then `onPeak := false`, `maxHeight := 0`, `maxHBin := -1`; `minHeight` and
`minHBin` are not reset), and the background-only window push. -/
def stepScan (W : Nat) (Hmin : Int) (bin : Nat) (binI : Nat) (s : ScanState) :
    ScanState × Option PeakRec :=
  if Hmin < peakHeightOf s binI then
    if s.onPeak then
      if s.maxHeight < peakHeightOf s binI then
        ({ s with maxHeight := peakHeightOf s binI, maxHBin := (bin : Int),
                  runHeights := s.runHeights ++ [peakHeightOf s binI] }, none)
      else if peakHeightOf s binI < s.minHeight then
        ({ s with minHeight := peakHeightOf s binI, minHBin := (bin : Int),
                  runHeights := s.runHeights ++ [peakHeightOf s binI] }, none)
      else
        ({ s with runHeights := s.runHeights ++ [peakHeightOf s binI] }, none)
    else
      ({ s with minHeight := peakHeightOf s binI, maxHeight := peakHeightOf s binI,
                minHBin := (bin : Int), maxHBin := (bin : Int), onPeak := true,
                runHeights := [peakHeightOf s binI], runStart := bin }, none)
  else
    if s.onPeak then
      (pushWindow W binI
        { s with onPeak := false, maxHeight := 0, maxHBin := -1, runHeights := [] },
       some { threshold := (meanOf s : Int) + s.minHeight,
              maxHBin := s.maxHBin, closeMean := meanOf s,
              runHeights := s.runHeights, runStart := s.runStart })
    else
      (pushWindow W binI s, none)

/-- The bin loop: runs `stepScan` over the intensities of one beam starting
at bin index `bin`, collecting the emitted records in order and (as
instrumentation) the per-bin heights. -/
def runScan (W : Nat) (Hmin : Int) : Nat → List Nat → ScanState →
    ScanState × List PeakRec × List Int
  | _, [], s => (s, [], [])
  | bin, binI :: restBins, s =>
    let sr := stepScan W Hmin bin binI s
    let out := runScan W Hmin (bin + 1) restBins sr.1
    (out.1, sr.2.toList ++ out.2.1, peakHeightOf s binI :: out.2.2)

/-- The per-beam initial state (lines 104-109): cleared window, zero
accumulator, `maxHeight = 0`, `maxHBin = -1`, `minHeight = 99999`,
`minHBin = -1`, not on a peak. -/
def initScan : ScanState :=
  { window := [], acc := 0, maxHeight := 0, maxHBin := -1,
    minHeight := 99999, minHBin := -1, onPeak := false,
    runHeights := [], runStart := 0 }

/-- Records emitted while scanning one beam, in emission order. -/
def scanBeam (W : Nat) (Hmin : Int) (bins : List Nat) : List PeakRec :=
  (runScan W Hmin 0 bins initScan).2.1

/-- The per-bin heights computed while scanning one beam. -/
def scanHeights (W : Nat) (Hmin : Int) (bins : List Nat) : List Int :=
  (runScan W Hmin 0 bins initScan).2.2

/-- `nBins = img16bits.rows - startBin` computed in unsigned 32-bit
arithmetic (line 63). -/
def nBinsOf (rows startBin : Nat) : Nat :=
  (rows % 2 ^ 32 + (2 ^ 32 - startBin % 2 ^ 32)) % 2 ^ 32

/-- The beam intensity sequences: for each of the `nBeams` beams, the
`nBins` sampled intensities.  `I beamIdx bin` abstracts
`img16bits.at<ushort>` composed with the beam's float ray geometry. -/
def beamsOf (cfg : Config) (rows : Nat) (I : Nat → Nat → Nat) : List (List Nat) :=
  (List.range cfg.nBeams).map fun b => (List.range (nBinsOf rows cfg.startBin)).map (I b)

/-- All peak records of one image, beam by beam (the `peaks` /
`peaksPostions` vectors; the record at index `i` corresponds to
`peaksPostions[i]`). -/
def collectPeaks (cfg : Config) (rows : Nat) (I : Nat → Nat → Nat) : List PeakRec :=
  (beamsOf cfg rows I).flatMap (scanBeam cfg.meanWindowSize cfg.Hmin)

/-- `std::pair<int,unsigned>` comparison used by `sort(peaks.begin(),
peaks.end())` (line 208): the reflexive closure of strict lexicographic
`operator<`.  The index components of the sorted pairs are pairwise
distinct, so by antisymmetry the ascending arrangement is the unique sorted
permutation and any sorting algorithm with this relation yields exactly the
`std::sort` result; `insertionSort` is used as the executable model. -/
def pairLe (a b : Int × Nat) : Prop :=
  a.1 < b.1 ∨ (a.1 = b.1 ∧ a.2 ≤ b.2)

instance : DecidableRel pairLe := fun a b => by
  unfold pairLe; infer_instance

instance : IsTotal (Int × Nat) pairLe :=
  ⟨fun a b => by unfold pairLe; omega⟩

instance : IsTrans (Int × Nat) pairLe :=
  ⟨fun a b c hab hbc => by unfold pairLe at *; omega⟩

instance : IsAntisymm (Int × Nat) pairLe :=
  ⟨fun a b hab hba => by
    unfold pairLe at *
    have h1 : a.1 = b.1 := by omega
    have h2 : a.2 = b.2 := by omega
    exact Prod.ext h1 h2⟩

/-- The sorted `peaks` vector: pairs `(threshold, index)` in increasing
threshold order (ties by index). -/
def segmentSorted (cfg : Config) (rows : Nat) (I : Nat → Nat → Nat) : List (Int × Nat) :=
  (((collectPeaks cfg rows I).enum.map fun p => (p.2.threshold, p.1)).insertionSort pairLe)

/-- One output region handle: the pool index it was obtained from
(`m_seg->segment(segCount)`), the pixel count `N` written by
`createSegment`, and the acceptance threshold it was grown with. -/
structure Region where
  handleIdx : Nat
  N : Nat
  threshold : Int
  deriving Repr, DecidableEq

/-- The external collaborators, modelled over an abstract mask/pool state
`μ`: `resetMask` models `m_seg->resetMask(rows, cols)` on the current
state, `grow` models `m_extractor->setThreshold(t)` followed by
`m_extractor->createSegment(seg, img, y, x)` returning the written pixel
count `N` and the updated mask state. -/
structure ExtModel (μ : Type) where
  resetMask : μ → Nat → Nat → μ
  grow : μ → Int → PeakRec → Nat × μ

/-- The extraction loop of lines 210-234: for each sorted pair, fetch the
pool handle at index `segCount`, grow from the record's position with its
threshold, and keep the handle (incrementing `segCount`) only when
`N ≥ minSampleSize`. -/
def extractOut {μ : Type} (em : ExtModel μ) (minSz : Nat) (peaks : List PeakRec) :
    List (Int × Nat) → μ → Nat → List Region
  | [], _, _ => []
  | (t, idx) :: rest, mask, segCount =>
    let p := peaks.getD idx { threshold := 0, maxHBin := -1, closeMean := 0,
                              runHeights := [], runStart := 0 }
    let gr := em.grow mask t p
    if minSz ≤ gr.1 then
      { handleIdx := segCount, N := gr.1, threshold := t } ::
        extractOut em minSz peaks rest gr.2 (segCount + 1)
    else
      extractOut em minSz peaks rest gr.2 segCount

/-- Instrumented extraction loop: logs, for every processed record (kept or
discarded), the pool handle index it was grown into, the resulting pixel
count and its threshold. -/
def extractTrace {μ : Type} (em : ExtModel μ) (minSz : Nat) (peaks : List PeakRec) :
    List (Int × Nat) → μ → Nat → List Region
  | [], _, _ => []
  | (t, idx) :: rest, mask, segCount =>
    let p := peaks.getD idx { threshold := 0, maxHBin := -1, closeMean := 0,
                              runHeights := [], runStart := 0 }
    let gr := em.grow mask t p
    { handleIdx := segCount, N := gr.1, threshold := t } ::
      extractTrace em minSz peaks rest gr.2
        (if minSz ≤ gr.1 then segCount + 1 else segCount)

/-- `ThetaRhoMeanPeakSegSearch::segment` (lines 61-240): scan all beams,
sort the records by `(threshold, index)`, reset the shared mask, then grow
and filter in sorted order.  `m0` is the incoming state of the shared
mask/pool, `I` the image sampled along the beam geometry. -/
def segment {μ : Type} (cfg : Config) (em : ExtModel μ) (rows cols : Nat)
    (I : Nat → Nat → Nat) (m0 : μ) : List Region :=
  extractOut em cfg.minSampleSize (collectPeaks cfg rows I)
    (segmentSorted cfg rows I) (em.resetMask m0 rows cols) 0

/-- The processing log of the same `segment` call: every sorted record with
the handle index it was grown into and the pixel count obtained. -/
def segmentTrace {μ : Type} (cfg : Config) (em : ExtModel μ) (rows cols : Nat)
    (I : Nat → Nat → Nat) (m0 : μ) : List Region :=
  extractTrace em cfg.minSampleSize (collectPeaks cfg rows I)
    (segmentSorted cfg rows I) (em.resetMask m0 rows cols) 0

/-! ### Specification-side definitions used by the theorems -/

/-- `countClosed inRun bs` counts the `true → false` transitions of the
flag sequence `inRun :: bs`: each maximal `true` run contributes one,
except a run still open at the end of the sequence. -/
def countClosed : Bool → List Bool → Nat
  | _, [] => 0
  | inRun, b :: rest => (if inRun && !b then 1 else 0) + countClosed b rest

/-- Number of maximal contiguous runs of `true` in `bs` that are closed,
i.e. whose last `true` is immediately followed by a `false`; a trailing
run that reaches the end of the list is not counted. -/
def closedRunCount : List Bool → Nat
  | [] => 0
  | [_] => 0
  | a :: b :: rest => (if a && !b then 1 else 0) + closedRunCount (b :: rest)

/-- Minimum of a list of integers (0 for the empty list, which never
occurs for a run). -/
def listMin : List Int → Int
  | [] => 0
  | h :: t => t.foldl min h

/-- The invariant maintained by the bin loop about the extremum fields,
relative to the ghost run data: while on a peak, `maxHeight` is the
maximum of the heights of the run's bins with `maxHBin` the earliest bin
attaining it, and `minHeight` is the minimum with `minHBin` the earliest
bin attaining it; `bin` is the index of the next bin to be processed. -/
def InvP (bin : Nat) (s : ScanState) : Prop :=
  (s.onPeak = false → s.runHeights = []) ∧
  (s.onPeak = true →
    s.runStart + s.runHeights.length = bin ∧
    s.runHeights ≠ [] ∧
    (∀ j, j < s.runHeights.length → s.runHeights.getD j 0 ≤ s.maxHeight) ∧
    (∃ k, k < s.runHeights.length ∧ s.runHeights.getD k 0 = s.maxHeight ∧
      s.maxHBin = (s.runStart : Int) + (k : Int) ∧
      ∀ j, j < k → s.runHeights.getD j 0 < s.maxHeight) ∧
    (∀ j, j < s.runHeights.length → s.minHeight ≤ s.runHeights.getD j 0) ∧
    (∃ k, k < s.runHeights.length ∧ s.runHeights.getD k 0 = s.minHeight ∧
      s.minHBin = (s.runStart : Int) + (k : Int) ∧
      ∀ j, j < k → s.minHeight < s.runHeights.getD j 0))

/-- What an emitted record satisfies: its threshold is the background mean
at the closing bin plus the minimum height of the run, and its position
multiplier `maxHBin` is the earliest bin of the run attaining the run's
maximum height. -/
def GoodRec (p : PeakRec) : Prop :=
  p.runHeights ≠ [] ∧
  p.threshold = (p.closeMean : Int) + listMin p.runHeights ∧
  ∃ k, k < p.runHeights.length ∧
    p.maxHBin = (p.runStart : Int) + (k : Int) ∧
    (∀ j, j < p.runHeights.length → p.runHeights.getD j 0 ≤ p.runHeights.getD k 0) ∧
    (∀ j, j < k → p.runHeights.getD j 0 < p.runHeights.getD k 0)

/-- Integer-vector model of the pixel position at which bin `bin` is
sampled: `binPos += beamDir` runs before `img16bits.at<ushort>` (lines
115-118), so bin `bin` is read at `binStartPos + (bin+1)·beamDir`. -/
def binSamplePos (startPos beamDir : Int × Int) (bin : Nat) : Int × Int :=
  (startPos.1 + ((bin : Int) + 1) * beamDir.1,
   startPos.2 + ((bin : Int) + 1) * beamDir.2)

/-- Integer-vector model of the stored seed position
`peakPosition = binStartPos + beamDir * maxHBin` (line 157). -/
def recSeedPos (startPos beamDir : Int × Int) (p : PeakRec) : Int × Int :=
  (startPos.1 + p.maxHBin * beamDir.1,
   startPos.2 + p.maxHBin * beamDir.2)

/-! ### Concrete inputs used by witnesses and counterexamples -/

/-- A single-beam image: intensities `[0, 100, 0, 200, 0]` along the beam. -/
def cI (b k : Nat) : Nat := [0, 100, 0, 200, 0].getD k 0

/-- Small configuration: one beam of 5 bins (`startBin = 0`, `rows = 5`),
`Hmin = 50`, `minSampleSize = 10`, `meanWindowSize = 1`. -/
def cCfg : Config :=
  { nBeams := 1, startBin := 0, Hmin := 50, minSampleSize := 10, meanWindowSize := 1 }

/-- A concrete collaborator model over mask state `Nat`: growth from a
record with threshold below 150 yields 5 pixels, otherwise 20 pixels. -/
def cEm : ExtModel Nat :=
  { resetMask := fun _ _ _ => 0,
    grow := fun m t _ => (if t < 150 then 5 else 20, m + 1) }

/-- `cCfg` with `startBin = 7`, for the `nBins` wraparound scenarios. -/
def cCfg7 : Config :=
  { nBeams := 1, startBin := 7, Hmin := 50, minSampleSize := 10, meanWindowSize := 1 }

/-- A concrete scan state in the middle of a peak run (one run bin of
height 40 seen at bin 3). -/
def cPeakState : ScanState :=
  { window := [], acc := 0, maxHeight := 40, maxHBin := 3, minHeight := 40,
    minHBin := 3, onPeak := true, runHeights := [40], runStart := 3 }

/-- The beam of the C6 scenario: flat background 50 with one contiguous
run of 5 bins at intensity 90. -/
def c6bins : List Nat := [50, 50, 50, 90, 90, 90, 90, 90, 50, 50]

/-- The C6 scenario's intended steady state: the window already filled
with three background samples of intensity 50. -/
def c6steady : ScanState :=
  { window := [50, 50, 50], acc := 150, maxHeight := 0, maxHBin := -1,
    minHeight := 99999, minHBin := -1, onPeak := false,
    runHeights := [], runStart := 0 }

/-! ### Basic projection lemmas -/

@[simp]
theorem pushWindow_onPeak (W binI : Nat) (s : ScanState) :
    (pushWindow W binI s).onPeak = s.onPeak := rfl

@[simp]
theorem pushWindow_runHeights (W binI : Nat) (s : ScanState) :
    (pushWindow W binI s).runHeights = s.runHeights := rfl

@[simp]
theorem pushWindow_runStart (W binI : Nat) (s : ScanState) :
    (pushWindow W binI s).runStart = s.runStart := rfl

@[simp]
theorem pushWindow_maxHeight (W binI : Nat) (s : ScanState) :
    (pushWindow W binI s).maxHeight = s.maxHeight := rfl

@[simp]
theorem pushWindow_maxHBin (W binI : Nat) (s : ScanState) :
    (pushWindow W binI s).maxHBin = s.maxHBin := rfl

@[simp]
theorem pushWindow_minHeight (W binI : Nat) (s : ScanState) :
    (pushWindow W binI s).minHeight = s.minHeight := rfl

@[simp]
theorem pushWindow_minHBin (W binI : Nat) (s : ScanState) :
    (pushWindow W binI s).minHBin = s.minHBin := rfl

/-- After any bin, the state is on a peak exactly when the bin's height
exceeded `Hmin`. -/
theorem stepScan_onPeak (W : Nat) (Hmin : Int) (bin binI : Nat) (s : ScanState) :
    (stepScan W Hmin bin binI s).1.onPeak = decide (Hmin < peakHeightOf s binI) := by
  unfold stepScan
  split_ifs with h1 h2 h3 h4 h5 <;> simp_all

/-- A record is emitted at a bin exactly when the scan was on a peak and
the bin's height does not exceed `Hmin`. -/
theorem stepScan_rec_length (W : Nat) (Hmin : Int) (bin binI : Nat) (s : ScanState) :
    ((stepScan W Hmin bin binI s).2.toList).length =
      if s.onPeak && !(decide (Hmin < peakHeightOf s binI)) then 1 else 0 := by
  unfold stepScan
  split_ifs with h1 h2 h3 h4 h5 <;> simp_all

/-! ### C2: record count = closed-run count -/

theorem countClosed_eq (bs : List Bool) :
    ∀ b, countClosed b bs = closedRunCount (b :: bs) := by
  induction bs with
  | nil => intro b; rfl
  | cons b2 rest ih => intro b; simp [countClosed, closedRunCount, ih b2]

theorem closedRunCount_false_cons (bs : List Bool) :
    closedRunCount (false :: bs) = closedRunCount bs := by
  cases bs with
  | nil => rfl
  | cons b rest => simp [closedRunCount]

theorem runScan_records_length (W : Nat) (Hmin : Int) :
    ∀ (bins : List Nat) (bin : Nat) (s : ScanState),
      ((runScan W Hmin bin bins s).2.1).length =
        countClosed s.onPeak
          (((runScan W Hmin bin bins s).2.2).map fun h => decide (Hmin < h)) := by
  intro bins
  induction bins with
  | nil => intro bin s; rfl
  | cons binI rest ih =>
    intro bin s
    have hstep := stepScan_rec_length W Hmin bin binI s
    have honp := stepScan_onPeak W Hmin bin binI s
    simp only [runScan, List.map_cons, countClosed, List.length_append, hstep,
      ih (bin + 1) (stepScan W Hmin bin binI s).1, honp]

/-- C2: for every beam, the number of emitted `PeakRecord`s equals the
number of maximal contiguous runs of bins with height strictly above
`Hmin` that are closed before the beam's last bin; a run still open at the
end of the beam produces no record. -/
theorem record_count_eq_closed_runs (W : Nat) (Hmin : Int) (bins : List Nat) :
    (scanBeam W Hmin bins).length =
      closedRunCount ((scanHeights W Hmin bins).map fun h => decide (Hmin < h)) := by
  unfold scanBeam scanHeights
  rw [runScan_records_length W Hmin bins 0 initScan]
  have h0 : initScan.onPeak = false := rfl
  rw [h0, countClosed_eq, closedRunCount_false_cons]

/-! ### C1: extraction follows ascending threshold order -/

/-- C1: after all beams are scanned and the record list is sorted, the
extraction sequence is in ascending threshold order: for positions
`i < j` of the sorted list, the threshold at `i` is at most the threshold
at `j`. -/
theorem sorted_thresholds_monotone (cfg : Config) (rows : Nat) (I : Nat → Nat → Nat)
    (i j : Nat) (hij : i < j) (hj : j < (segmentSorted cfg rows I).length) :
    ((segmentSorted cfg rows I).getD i (0, 0)).1 ≤
      ((segmentSorted cfg rows I).getD j (0, 0)).1 := by
  have hs : (segmentSorted cfg rows I).Pairwise pairLe :=
    List.sorted_insertionSort pairLe _
  have hi : i < (segmentSorted cfg rows I).length := Nat.lt_trans hij hj
  rw [List.getD_eq_getElem _ _ hi, List.getD_eq_getElem _ _ hj]
  have hrel := List.pairwise_iff_getElem.mp hs i j hi hj hij
  unfold pairLe at hrel
  omega

theorem sorted_thresholds_monotone_witness :
    0 < 1 ∧ 1 < (segmentSorted cCfg 5 cI).length ∧
      ((segmentSorted cCfg 5 cI).getD 0 (0, 0)).1 ≤
        ((segmentSorted cCfg 5 cI).getD 1 (0, 0)).1 :=
  ⟨by decide, by decide, sorted_thresholds_monotone cCfg 5 cI 0 1 (by decide) (by decide)⟩

/-! ### Extraction loop: C5, C8, C9, C10 -/

theorem extractOut_eq_filter_trace {μ : Type} (em : ExtModel μ) (minSz : Nat)
    (peaks : List PeakRec) :
    ∀ (l : List (Int × Nat)) (mask : μ) (c : Nat),
      extractOut em minSz peaks l mask c =
        (extractTrace em minSz peaks l mask c).filter fun r => decide (minSz ≤ r.N) := by
  intro l
  induction l with
  | nil => intro mask c; rfl
  | cons x rest ih =>
    intro mask c
    obtain ⟨t, idx⟩ := x
    simp only [extractOut, extractTrace]
    split_ifs with hN
    · rw [ih, List.filter_cons]
      simp only [List.getD_eq_getElem?_getD] at hN ⊢
      simp [hN]
    · rw [ih, List.filter_cons]
      simp only [List.getD_eq_getElem?_getD] at hN ⊢
      simp [hN]

/-- C5: every region in the output of `segment` has pixel count at least
`minSampleSize`, and the output is exactly the subsequence of the
processing trace whose pixel count reaches `minSampleSize`, in acceptance
order. -/
theorem output_regions_filtered_by_size {μ : Type} (cfg : Config) (em : ExtModel μ)
    (rows cols : Nat) (I : Nat → Nat → Nat) (m0 : μ) :
    (∀ r ∈ segment cfg em rows cols I m0, cfg.minSampleSize ≤ r.N) ∧
    segment cfg em rows cols I m0 =
      (segmentTrace cfg em rows cols I m0).filter fun r => decide (cfg.minSampleSize ≤ r.N) := by
  have key := extractOut_eq_filter_trace em cfg.minSampleSize (collectPeaks cfg rows I)
    (segmentSorted cfg rows I) (em.resetMask m0 rows cols) 0
  refine ⟨?_, key⟩
  intro r hr
  rw [segment, key] at hr
  have := (List.mem_filter.mp hr).2
  exact of_decide_eq_true this

theorem output_regions_filtered_by_size_witness :
    ({ handleIdx := 0, N := 20, threshold := 200 } : Region) ∈ segment cCfg cEm 5 4 cI 0 ∧
      cCfg.minSampleSize ≤ ({ handleIdx := 0, N := 20, threshold := 200 } : Region).N :=
  ⟨by decide, (output_regions_filtered_by_size cCfg cEm 5 4 cI 0).1 _ (by decide)⟩

theorem extractTrace_handleIdx {μ : Type} (em : ExtModel μ) (minSz : Nat)
    (peaks : List PeakRec) :
    ∀ (l : List (Int × Nat)) (mask : μ) (c i : Nat),
      i < (extractTrace em minSz peaks l mask c).length →
      ((extractTrace em minSz peaks l mask c).getD i
          { handleIdx := 0, N := 0, threshold := 0 }).handleIdx =
        c + ((extractTrace em minSz peaks l mask c).take i).countP
              (fun r => decide (minSz ≤ r.N)) := by
  intro l
  induction l with
  | nil => intro mask c i hi; simp [extractTrace] at hi
  | cons x rest ih =>
    intro mask c i hi
    obtain ⟨t, idx⟩ := x
    simp only [extractTrace] at hi ⊢
    cases i with
    | zero => simp
    | succ i =>
      simp only [List.getD_cons_succ, List.take_succ_cons, List.countP_cons]
      simp only [List.length_cons, Nat.succ_lt_succ_iff] at hi
      rw [ih _ _ i hi]
      generalize em.grow mask t (peaks.getD idx
        { threshold := 0, maxHBin := -1, closeMean := 0,
          runHeights := [], runStart := 0 }) = gr
      by_cases hN : minSz ≤ gr.1
      · simp [hN]
        omega
      · simp [hN]

theorem extractOut_handleIdx {μ : Type} (em : ExtModel μ) (minSz : Nat)
    (peaks : List PeakRec) :
    ∀ (l : List (Int × Nat)) (mask : μ) (c i : Nat),
      i < (extractOut em minSz peaks l mask c).length →
      ((extractOut em minSz peaks l mask c).getD i
          { handleIdx := 0, N := 0, threshold := 0 }).handleIdx = c + i := by
  intro l
  induction l with
  | nil => intro mask c i hi; simp [extractOut] at hi
  | cons x rest ih =>
    intro mask c i hi
    obtain ⟨t, idx⟩ := x
    simp only [extractOut] at hi ⊢
    by_cases hN : minSz ≤ (em.grow mask t (peaks.getD idx
        { threshold := 0, maxHBin := -1, closeMean := 0,
          runHeights := [], runStart := 0 })).1
    · simp only [hN, if_true] at hi ⊢
      cases i with
      | zero => simp
      | succ i =>
        simp only [List.getD_cons_succ]
        simp only [List.length_cons, Nat.succ_lt_succ_iff] at hi
        rw [ih _ _ i hi]
        omega
    · simp only [hN, if_false] at hi ⊢
      exact ih _ _ i hi

/-- C8 counterexample: in the concrete scenario the first sorted record's
region is rejected, so the second record is grown into the same pool
handle index 0 — the handle indices of one call's processed records are
not pairwise distinct. -/
theorem handle_reuse_after_reject :
    ¬ ((segmentTrace cCfg cEm 5 4 cI 0).map fun r => r.handleIdx).Nodup := by
  decide

/-- C8 (amended): each sorted record is grown into the pool handle whose
index equals the number of records accepted before it (so a record that
follows only rejections since the last acceptance reuses that handle),
and the regions kept in the output occupy the distinct indices 0, 1, 2, …
in acceptance order. -/
theorem handle_index_eq_accept_count {μ : Type} (cfg : Config) (em : ExtModel μ)
    (rows cols : Nat) (I : Nat → Nat → Nat) (m0 : μ) (i j : Nat)
    (hi : i < (segmentTrace cfg em rows cols I m0).length)
    (hj : j < (segment cfg em rows cols I m0).length) :
    ((segmentTrace cfg em rows cols I m0).getD i
        { handleIdx := 0, N := 0, threshold := 0 }).handleIdx =
      ((segmentTrace cfg em rows cols I m0).take i).countP
        (fun r => decide (cfg.minSampleSize ≤ r.N)) ∧
    ((segment cfg em rows cols I m0).getD j
        { handleIdx := 0, N := 0, threshold := 0 }).handleIdx = j := by
  constructor
  · have h := extractTrace_handleIdx em cfg.minSampleSize (collectPeaks cfg rows I)
      (segmentSorted cfg rows I) (em.resetMask m0 rows cols) 0 i hi
    simpa [segmentTrace] using h
  · have h := extractOut_handleIdx em cfg.minSampleSize (collectPeaks cfg rows I)
      (segmentSorted cfg rows I) (em.resetMask m0 rows cols) 0 j hj
    simpa [segment] using h

theorem handle_index_eq_accept_count_witness :
    1 < (segmentTrace cCfg cEm 5 4 cI 0).length ∧
    0 < (segment cCfg cEm 5 4 cI 0).length ∧
    ((segmentTrace cCfg cEm 5 4 cI 0).getD 1
        { handleIdx := 0, N := 0, threshold := 0 }).handleIdx =
      ((segmentTrace cCfg cEm 5 4 cI 0).take 1).countP
        (fun r => decide (cCfg.minSampleSize ≤ r.N)) ∧
    ((segment cCfg cEm 5 4 cI 0).getD 0
        { handleIdx := 0, N := 0, threshold := 0 }).handleIdx = 0 :=
  ⟨by decide, by decide,
    (handle_index_eq_accept_count cCfg cEm 5 4 cI 0 1 0 (by decide) (by decide)).1,
    (handle_index_eq_accept_count cCfg cEm 5 4 cI 0 1 0 (by decide) (by decide)).2⟩

/-- C9: `segment` resets the shared mask at the start of the extraction
phase, so two calls on the same image and configuration — with a reset
operation whose result does not depend on the incoming mask/pool state —
produce identical ordered output lists regardless of the prior shared
state. -/
theorem segment_deterministic {μ : Type} (cfg : Config) (em : ExtModel μ)
    (rows cols : Nat) (I : Nat → Nat → Nat) (m0 m1 : μ)
    (hreset : ∀ a b r c, em.resetMask a r c = em.resetMask b r c) :
    segment cfg em rows cols I m0 = segment cfg em rows cols I m1 := by
  unfold segment
  rw [hreset m0 m1 rows cols]

theorem segment_deterministic_witness :
    (∀ a b r c, cEm.resetMask a r c = cEm.resetMask b r c) ∧
      segment cCfg cEm 5 4 cI 3 = segment cCfg cEm 5 4 cI 7 :=
  ⟨fun _ _ _ _ => rfl,
    segment_deterministic cCfg cEm 5 4 cI 3 7 (fun _ _ _ _ => rfl)⟩

/-- C10: `nBins = rows - startBin` is computed in unsigned 32-bit
arithmetic: every beam sequence has exactly `(rows - startBin) mod 2^32`
bins, `rows = startBin` gives zero bins per beam and an empty output, and
`rows < startBin` wraps `nBins` to `2^32 - (startBin - rows)`, a value of
at least `2^32 - startBin`, instead of signalling an error. -/
theorem nbins_unsigned_wraparound {μ : Type} (cfg : Config) (em : ExtModel μ)
    (rows cols : Nat) (I : Nat → Nat → Nat) (m0 : μ) :
    (∀ bs ∈ beamsOf cfg rows I, bs.length = nBinsOf rows cfg.startBin) ∧
    (cfg.startBin = rows →
      nBinsOf rows cfg.startBin = 0 ∧ segment cfg em rows cols I m0 = []) ∧
    (rows < cfg.startBin → cfg.startBin < 2 ^ 32 →
      nBinsOf rows cfg.startBin = 2 ^ 32 - (cfg.startBin - rows) ∧
      2 ^ 32 - cfg.startBin ≤ nBinsOf rows cfg.startBin) := by
  have h32 : (2 : Nat) ^ 32 = 4294967296 := by norm_num
  refine ⟨?_, ?_, ?_⟩
  · intro bs hbs
    simp only [beamsOf, List.mem_map, List.mem_range] at hbs
    obtain ⟨b, _, rfl⟩ := hbs
    simp
  · intro hsb
    have hz : nBinsOf rows cfg.startBin = 0 := by
      unfold nBinsOf; rw [hsb, h32]; omega
    refine ⟨hz, ?_⟩
    have hpeaks : collectPeaks cfg rows I = [] := by
      unfold collectPeaks beamsOf
      rw [hz]
      simp [scanBeam, runScan, List.flatMap]
    simp [segment, segmentSorted, hpeaks, extractOut]
  · intro hlt h232
    unfold nBinsOf
    rw [h32] at *
    omega

theorem nbins_unsigned_wraparound_witness :
    (cCfg7.startBin = 7 ∧ nBinsOf 7 cCfg7.startBin = 0 ∧
      segment cCfg7 cEm 7 4 cI 0 = []) ∧
    (5 < cCfg7.startBin ∧
      nBinsOf 5 cCfg7.startBin = 2 ^ 32 - (cCfg7.startBin - 5)) :=
  ⟨⟨rfl, (nbins_unsigned_wraparound cCfg7 cEm 7 4 cI 0).2.1 rfl⟩,
   ⟨by decide,
    ((nbins_unsigned_wraparound cCfg7 cEm 5 4 cI 0).2.2 (by decide) (by decide)).1⟩⟩

/-! ### listMin and getD helpers -/

theorem foldl_min_le_init (t : List Int) : ∀ a : Int, t.foldl min a ≤ a := by
  induction t with
  | nil => intro a; exact le_refl a
  | cons x rest ih =>
    intro a
    calc rest.foldl min (min a x) ≤ min a x := ih (min a x)
    _ ≤ a := min_le_left a x

theorem foldl_min_le_mem (t : List Int) : ∀ (a x : Int), x ∈ t → t.foldl min a ≤ x := by
  induction t with
  | nil => intro a x hx; simp at hx
  | cons y rest ih =>
    intro a x hx
    rcases List.mem_cons.mp hx with rfl | hx
    · calc rest.foldl min (min a x) ≤ min a x := foldl_min_le_init rest _
      _ ≤ x := min_le_right a x
    · exact ih (min a y) x hx

theorem le_foldl_min (t : List Int) : ∀ (a c : Int), c ≤ a → (∀ x ∈ t, c ≤ x) →
    c ≤ t.foldl min a := by
  induction t with
  | nil => intro a c hca _; exact hca
  | cons y rest ih =>
    intro a c hca hmem
    exact ih (min a y) c (le_min hca (hmem y (List.mem_cons_self y rest)))
      fun x hx => hmem x (List.mem_cons_of_mem y hx)

/-- A list's minimum equals any value that is both a lower bound of the
list and attained at some index. -/
theorem listMin_eq (hs : List Int) (m : Int)
    (hlb : ∀ j, j < hs.length → m ≤ hs.getD j 0)
    (hat : ∃ k, k < hs.length ∧ hs.getD k 0 = m) : listMin hs = m := by
  obtain ⟨k, hk, hkv⟩ := hat
  have hmem : m ∈ hs := by
    rw [← hkv, List.getD_eq_getElem hs 0 hk]
    exact List.getElem_mem hk
  have hlb' : ∀ x ∈ hs, m ≤ x := by
    intro x hx
    obtain ⟨i, hi, rfl⟩ := List.mem_iff_getElem.mp hx
    have := hlb i hi
    rwa [List.getD_eq_getElem hs 0 hi] at this
  cases hs with
  | nil => simp at hk
  | cons y rest =>
    unfold listMin
    apply le_antisymm
    · rcases List.mem_cons.mp hmem with rfl | hmem'
      · exact foldl_min_le_init rest m
      · exact foldl_min_le_mem rest y m hmem'
    · exact le_foldl_min rest y m (hlb' y (List.mem_cons_self y rest))
        fun x hx => hlb' x (List.mem_cons_of_mem y hx)

theorem getD_concat_len (hs : List Int) (v : Int) : (hs ++ [v]).getD hs.length 0 = v := by
  rw [List.getD_append_right _ _ _ _ (Nat.le_refl _)]
  simp

theorem getD_concat_lt (hs : List Int) (v : Int) (j : Nat) (hj : j < hs.length) :
    (hs ++ [v]).getD j 0 = hs.getD j 0 :=
  List.getD_append _ _ _ _ hj

/-! ### Branch equations of stepScan -/

theorem stepScan_entry (W : Nat) (Hmin : Int) (bin binI : Nat) (s : ScanState)
    (h1 : Hmin < peakHeightOf s binI) (honp : s.onPeak = false) :
    stepScan W Hmin bin binI s =
      ({ s with minHeight := peakHeightOf s binI, maxHeight := peakHeightOf s binI,
                minHBin := (bin : Int), maxHBin := (bin : Int), onPeak := true,
                runHeights := [peakHeightOf s binI], runStart := bin }, none) := by
  unfold stepScan
  simp [h1, honp]

theorem stepScan_max (W : Nat) (Hmin : Int) (bin binI : Nat) (s : ScanState)
    (h1 : Hmin < peakHeightOf s binI) (honp : s.onPeak = true)
    (h3 : s.maxHeight < peakHeightOf s binI) :
    stepScan W Hmin bin binI s =
      ({ s with maxHeight := peakHeightOf s binI, maxHBin := (bin : Int),
                runHeights := s.runHeights ++ [peakHeightOf s binI] }, none) := by
  unfold stepScan
  simp [h1, honp, h3]

theorem stepScan_min (W : Nat) (Hmin : Int) (bin binI : Nat) (s : ScanState)
    (h1 : Hmin < peakHeightOf s binI) (honp : s.onPeak = true)
    (h3 : ¬ s.maxHeight < peakHeightOf s binI)
    (h4 : peakHeightOf s binI < s.minHeight) :
    stepScan W Hmin bin binI s =
      ({ s with minHeight := peakHeightOf s binI, minHBin := (bin : Int),
                runHeights := s.runHeights ++ [peakHeightOf s binI] }, none) := by
  unfold stepScan
  simp [h1, honp, h3, h4]

theorem stepScan_mid (W : Nat) (Hmin : Int) (bin binI : Nat) (s : ScanState)
    (h1 : Hmin < peakHeightOf s binI) (honp : s.onPeak = true)
    (h3 : ¬ s.maxHeight < peakHeightOf s binI)
    (h4 : ¬ peakHeightOf s binI < s.minHeight) :
    stepScan W Hmin bin binI s =
      ({ s with runHeights := s.runHeights ++ [peakHeightOf s binI] }, none) := by
  unfold stepScan
  simp [h1, honp, h3, h4]

theorem stepScan_emit (W : Nat) (Hmin : Int) (bin binI : Nat) (s : ScanState)
    (h1 : ¬ Hmin < peakHeightOf s binI) (honp : s.onPeak = true) :
    stepScan W Hmin bin binI s =
      (pushWindow W binI
        { s with onPeak := false, maxHeight := 0, maxHBin := -1, runHeights := [] },
       some { threshold := (meanOf s : Int) + s.minHeight,
              maxHBin := s.maxHBin, closeMean := meanOf s,
              runHeights := s.runHeights, runStart := s.runStart }) := by
  unfold stepScan
  simp [h1, honp]

theorem stepScan_bg (W : Nat) (Hmin : Int) (bin binI : Nat) (s : ScanState)
    (h1 : ¬ Hmin < peakHeightOf s binI) (honp : s.onPeak = false) :
    stepScan W Hmin bin binI s = (pushWindow W binI s, none) := by
  unfold stepScan
  simp [h1, honp]

/-! ### Invariant preservation -/

theorem stepScan_inv (W : Nat) (Hmin : Int) (bin binI : Nat) (s : ScanState)
    (hInv : InvP bin s) :
    InvP (bin + 1) (stepScan W Hmin bin binI s).1 ∧
    ∀ p ∈ (stepScan W Hmin bin binI s).2.toList, GoodRec p := by
  obtain ⟨hbg, hpk⟩ := hInv
  by_cases h1 : Hmin < peakHeightOf s binI
  · cases honp : s.onPeak with
    | false =>
      rw [stepScan_entry W Hmin bin binI s h1 honp]
      dsimp only
      refine ⟨⟨?_, ?_⟩, ?_⟩
      · intro hfalse; simp at hfalse
      · intro _
        refine ⟨by simp, by simp, ?_, ⟨0, by simp, by simp, by simp, by omega⟩,
          ?_, ⟨0, by simp, by simp, by simp, by omega⟩⟩
        · intro j hj
          simp only [List.length_singleton] at hj
          interval_cases j
          simp
        · intro j hj
          simp only [List.length_singleton] at hj
          interval_cases j
          simp
      · intro p hp; simp at hp
    | true =>
      obtain ⟨hstart, hne, hmaxub, ⟨kM, hkMlt, hkMval, hkMbin, hkMfirst⟩,
        hminlb, ⟨km, hkmlt, hkmval, hkmbin, hkmfirst⟩⟩ := hpk honp
      have hminmax : s.minHeight ≤ s.maxHeight := by
        have := hminlb kM hkMlt
        omega
      by_cases h3 : s.maxHeight < peakHeightOf s binI
      · rw [stepScan_max W Hmin bin binI s h1 honp h3]
        dsimp only
        refine ⟨⟨?_, ?_⟩, ?_⟩
        · intro hfalse; rw [honp] at hfalse; simp at hfalse
        · intro _
          refine ⟨?_, by simp, ?_, ?_, ?_, ?_⟩
          · simp only [List.length_append, List.length_singleton]
            omega
          · intro j hj
            simp only [List.length_append, List.length_singleton] at hj
            by_cases hjl : j < s.runHeights.length
            · rw [getD_concat_lt _ _ _ hjl]
              exact le_of_lt (lt_of_le_of_lt (hmaxub j hjl) h3)
            · have hje : j = s.runHeights.length := by omega
              rw [hje, getD_concat_len]
          · refine ⟨s.runHeights.length, by simp, getD_concat_len _ _, by dsimp only; omega, ?_⟩
            intro j hj
            rw [getD_concat_lt _ _ _ hj]
            exact lt_of_le_of_lt (hmaxub j hj) h3
          · intro j hj
            simp only [List.length_append, List.length_singleton] at hj
            by_cases hjl : j < s.runHeights.length
            · rw [getD_concat_lt _ _ _ hjl]
              exact hminlb j hjl
            · have hje : j = s.runHeights.length := by omega
              rw [hje, getD_concat_len]
              dsimp only; omega
          · refine ⟨km, by simp only [List.length_append, List.length_singleton]; omega,
              ?_, hkmbin, ?_⟩
            · rw [getD_concat_lt _ _ _ hkmlt]; exact hkmval
            · intro j hj
              rw [getD_concat_lt _ _ _ (Nat.lt_trans hj hkmlt)]
              exact hkmfirst j hj
        · intro p hp; simp at hp
      · by_cases h4 : peakHeightOf s binI < s.minHeight
        · rw [stepScan_min W Hmin bin binI s h1 honp h3 h4]
          dsimp only
          refine ⟨⟨?_, ?_⟩, ?_⟩
          · intro hfalse; rw [honp] at hfalse; simp at hfalse
          · intro _
            refine ⟨?_, by simp, ?_, ?_, ?_, ?_⟩
            · simp only [List.length_append, List.length_singleton]
              omega
            · intro j hj
              simp only [List.length_append, List.length_singleton] at hj
              by_cases hjl : j < s.runHeights.length
              · rw [getD_concat_lt _ _ _ hjl]
                exact hmaxub j hjl
              · have hje : j = s.runHeights.length := by omega
                rw [hje, getD_concat_len]
                dsimp only; omega
            · refine ⟨kM, by simp only [List.length_append, List.length_singleton]; omega,
                ?_, hkMbin, ?_⟩
              · rw [getD_concat_lt _ _ _ hkMlt]; exact hkMval
              · intro j hj
                rw [getD_concat_lt _ _ _ (Nat.lt_trans hj hkMlt)]
                exact hkMfirst j hj
            · intro j hj
              simp only [List.length_append, List.length_singleton] at hj
              by_cases hjl : j < s.runHeights.length
              · rw [getD_concat_lt _ _ _ hjl]
                exact le_of_lt (lt_of_lt_of_le h4 (hminlb j hjl))
              · have hje : j = s.runHeights.length := by omega
                rw [hje, getD_concat_len]
            · refine ⟨s.runHeights.length, by simp, getD_concat_len _ _, by dsimp only; omega, ?_⟩
              intro j hj
              rw [getD_concat_lt _ _ _ hj]
              exact lt_of_lt_of_le h4 (hminlb j hj)
          · intro p hp; simp at hp
        · rw [stepScan_mid W Hmin bin binI s h1 honp h3 h4]
          dsimp only
          refine ⟨⟨?_, ?_⟩, ?_⟩
          · intro hfalse; rw [honp] at hfalse; simp at hfalse
          · intro _
            refine ⟨?_, by simp, ?_, ?_, ?_, ?_⟩
            · simp only [List.length_append, List.length_singleton]
              omega
            · intro j hj
              simp only [List.length_append, List.length_singleton] at hj
              by_cases hjl : j < s.runHeights.length
              · rw [getD_concat_lt _ _ _ hjl]
                exact hmaxub j hjl
              · have hje : j = s.runHeights.length := by omega
                rw [hje, getD_concat_len]
                dsimp only; omega
            · refine ⟨kM, by simp only [List.length_append, List.length_singleton]; omega,
                ?_, hkMbin, ?_⟩
              · rw [getD_concat_lt _ _ _ hkMlt]; exact hkMval
              · intro j hj
                rw [getD_concat_lt _ _ _ (Nat.lt_trans hj hkMlt)]
                exact hkMfirst j hj
            · intro j hj
              simp only [List.length_append, List.length_singleton] at hj
              by_cases hjl : j < s.runHeights.length
              · rw [getD_concat_lt _ _ _ hjl]
                exact hminlb j hjl
              · have hje : j = s.runHeights.length := by omega
                rw [hje, getD_concat_len]
                dsimp only; omega
            · refine ⟨km, by simp only [List.length_append, List.length_singleton]; omega,
                ?_, hkmbin, ?_⟩
              · rw [getD_concat_lt _ _ _ hkmlt]; exact hkmval
              · intro j hj
                rw [getD_concat_lt _ _ _ (Nat.lt_trans hj hkmlt)]
                exact hkmfirst j hj
          · intro p hp; simp at hp
  · cases honp : s.onPeak with
    | true =>
      obtain ⟨hstart, hne, hmaxub, ⟨kM, hkMlt, hkMval, hkMbin, hkMfirst⟩,
        hminlb, ⟨km, hkmlt, hkmval, hkmbin, hkmfirst⟩⟩ := hpk honp
      rw [stepScan_emit W Hmin bin binI s h1 honp]
      dsimp only
      refine ⟨⟨?_, ?_⟩, ?_⟩
      · intro _; rfl
      · intro hfalse; simp at hfalse
      · intro p hp
        simp only [Option.toList_some, List.mem_singleton] at hp
        subst hp
        refine ⟨hne, ?_, ⟨kM, hkMlt, hkMbin, ?_, ?_⟩⟩
        · have hmin : listMin s.runHeights = s.minHeight :=
            listMin_eq s.runHeights s.minHeight hminlb ⟨km, hkmlt, hkmval⟩
          simp [hmin]
        · intro j hj
          rw [hkMval]
          exact hmaxub j hj
        · intro j hj
          rw [hkMval]
          exact hkMfirst j hj
    | false =>
      rw [stepScan_bg W Hmin bin binI s h1 honp]
      dsimp only
      refine ⟨⟨?_, ?_⟩, ?_⟩
      · intro _
        rw [pushWindow_runHeights]
        exact hbg honp
      · intro hfalse
        rw [pushWindow_onPeak, honp] at hfalse
        simp at hfalse
      · intro p hp; simp at hp

theorem InvP_init : InvP 0 initScan := by
  constructor
  · intro _; rfl
  · intro hfalse; simp [initScan] at hfalse

theorem runScan_inv (W : Nat) (Hmin : Int) :
    ∀ (bins : List Nat) (bin : Nat) (s : ScanState), InvP bin s →
      InvP (bin + bins.length) (runScan W Hmin bin bins s).1 ∧
      ∀ p ∈ (runScan W Hmin bin bins s).2.1, GoodRec p := by
  intro bins
  induction bins with
  | nil =>
    intro bin s h
    refine ⟨by simpa [runScan] using h, ?_⟩
    intro p hp
    simp [runScan] at hp
  | cons binI rest ih =>
    intro bin s h
    have hstep := stepScan_inv W Hmin bin binI s h
    have hrec := ih (bin + 1) (stepScan W Hmin bin binI s).1 hstep.1
    constructor
    · have hlen : bin + (binI :: rest).length = bin + 1 + rest.length := by
        simp only [List.length_cons]; omega
      rw [hlen]
      simpa [runScan] using hrec.1
    · intro p hp
      simp only [runScan, List.mem_append] at hp
      rcases hp with hp | hp
      · exact hstep.2 p hp
      · exact hrec.2 p hp

/-- Every record emitted while scanning a beam satisfies `GoodRec`. -/
theorem scanBeam_good (W : Nat) (Hmin : Int) (bins : List Nat) :
    ∀ p ∈ scanBeam W Hmin bins, GoodRec p := by
  intro p hp
  exact (runScan_inv W Hmin bins 0 initScan InvP_init).2 p hp

/-! ### C3: threshold = background mean at run close + run minimum -/

/-- C3: every emitted record's threshold equals the background mean
computed at the bin where the run closes (before that bin is pushed into
the window) plus the minimum height observed over the bins of the run. -/
theorem threshold_eq_close_mean_add_run_min (W : Nat) (Hmin : Int)
    (bins : List Nat) (p : PeakRec) (hp : p ∈ scanBeam W Hmin bins) :
    p.threshold = (p.closeMean : Int) + listMin p.runHeights :=
  (scanBeam_good W Hmin bins p hp).2.1

theorem threshold_eq_close_mean_add_run_min_witness :
    ({ threshold := 100, maxHBin := 1, closeMean := 0, runHeights := [100],
       runStart := 1 } : PeakRec) ∈ scanBeam 1 50 [0, 100, 0, 200, 0] ∧
    (100 : Int) = ((0 : Nat) : Int) + listMin [100] :=
  ⟨by decide,
    threshold_eq_close_mean_add_run_min 1 50 [0, 100, 0, 200, 0]
      { threshold := 100, maxHBin := 1, closeMean := 0, runHeights := [100],
        runStart := 1 } (by decide)⟩

/-! ### C4: stored seed position vs sampled position of the strongest bin -/

/-- C4 counterexample: there is a beam whose emitted record's stored seed
position differs from the pixel at which the intensity of the run's
maximum-height bin was sampled (the sample of bin `maxHBin` is taken at
`binStartPos + (maxHBin+1)·beamDir`, but the seed is stored at
`binStartPos + maxHBin·beamDir`). -/
theorem seed_pos_neq_sample_pos :
    ∃ p ∈ scanBeam 1 50 [0, 100, 0, 200, 0],
      recSeedPos (10, 50) (0, -1) p ≠ binSamplePos (10, 50) (0, -1) p.maxHBin.toNat := by
  decide

/-- C4 (amended): the record's `maxHBin` is the earliest bin of the run
attaining the run's maximum height, and the stored seed position is one
beam-direction step before the pixel at which that bin's intensity was
sampled. -/
theorem seed_pos_one_step_before_strongest (W : Nat) (Hmin : Int)
    (bins : List Nat) (p : PeakRec) (hp : p ∈ scanBeam W Hmin bins) :
    0 ≤ p.maxHBin ∧
    (∃ k, k < p.runHeights.length ∧ p.maxHBin = (p.runStart : Int) + (k : Int) ∧
      (∀ j, j < p.runHeights.length →
        p.runHeights.getD j 0 ≤ p.runHeights.getD k 0) ∧
      (∀ j, j < k → p.runHeights.getD j 0 < p.runHeights.getD k 0)) ∧
    ∀ startPos beamDir : Int × Int,
      (recSeedPos startPos beamDir p).1 =
        (binSamplePos startPos beamDir p.maxHBin.toNat).1 - beamDir.1 ∧
      (recSeedPos startPos beamDir p).2 =
        (binSamplePos startPos beamDir p.maxHBin.toNat).2 - beamDir.2 := by
  obtain ⟨-, -, k, hk, hbin, hub, hfirst⟩ := scanBeam_good W Hmin bins p hp
  have h0 : 0 ≤ p.maxHBin := by rw [hbin]; positivity
  refine ⟨h0, ⟨k, hk, hbin, hub, hfirst⟩, ?_⟩
  intro startPos beamDir
  have htn : (p.maxHBin.toNat : Int) = p.maxHBin := Int.toNat_of_nonneg h0
  unfold recSeedPos binSamplePos
  rw [htn]
  constructor <;> ring

theorem seed_pos_one_step_before_strongest_witness :
    ({ threshold := 200, maxHBin := 3, closeMean := 0, runHeights := [200],
       runStart := 3 } : PeakRec) ∈ scanBeam 1 50 [0, 100, 0, 200, 0] ∧
    (recSeedPos (10, 50) (0, -1)
        { threshold := 200, maxHBin := 3, closeMean := 0, runHeights := [200],
          runStart := 3 }).2 =
      (binSamplePos (10, 50) (0, -1) 3).2 - (-1) :=
  ⟨by decide,
    ((seed_pos_one_step_before_strongest 1 50 [0, 100, 0, 200, 0]
        { threshold := 200, maxHBin := 3, closeMean := 0, runHeights := [200],
          runStart := 3 } (by decide)).2.2 (10, 50) (0, -1)).2⟩

/-! ### C7: extremum invariant of the peak run -/

/-- C7: throughout every peak run, `maxHeight` is the maximum of the run's
heights so far with `maxHBin` the earliest bin attaining it and
`minHeight` the minimum with `minHBin` the earliest bin attaining it
(strict comparisons, so ties never overwrite); moreover at each `IN_PEAK`
step at most one of the two extremum pairs changes, and the max branch
takes precedence: whenever the height strictly exceeds `maxHeight`, the
min pair is left unchanged. -/
theorem run_extrema_invariant (W : Nat) (Hmin : Int) :
    (∀ bins : List Nat, InvP bins.length (runScan W Hmin 0 bins initScan).1) ∧
    (∀ (s : ScanState) (bin binI : Nat), s.onPeak = true →
      ¬ (((stepScan W Hmin bin binI s).1.maxHeight ≠ s.maxHeight ∨
          (stepScan W Hmin bin binI s).1.maxHBin ≠ s.maxHBin) ∧
         ((stepScan W Hmin bin binI s).1.minHeight ≠ s.minHeight ∨
          (stepScan W Hmin bin binI s).1.minHBin ≠ s.minHBin))) ∧
    (∀ (s : ScanState) (bin binI : Nat), s.onPeak = true →
      s.maxHeight < peakHeightOf s binI →
      (stepScan W Hmin bin binI s).1.minHeight = s.minHeight ∧
      (stepScan W Hmin bin binI s).1.minHBin = s.minHBin) := by
  refine ⟨?_, ?_, ?_⟩
  · intro bins
    have h := (runScan_inv W Hmin bins 0 initScan InvP_init).1
    simpa using h
  · intro s bin binI honp
    by_cases h1 : Hmin < peakHeightOf s binI
    · by_cases h3 : s.maxHeight < peakHeightOf s binI
      · rw [stepScan_max W Hmin bin binI s h1 honp h3]
        dsimp only
        tauto
      · by_cases h4 : peakHeightOf s binI < s.minHeight
        · rw [stepScan_min W Hmin bin binI s h1 honp h3 h4]
          dsimp only
          tauto
        · rw [stepScan_mid W Hmin bin binI s h1 honp h3 h4]
          dsimp only
          tauto
    · rw [stepScan_emit W Hmin bin binI s h1 honp]
      simp only [pushWindow_minHeight, pushWindow_minHBin]
      tauto
  · intro s bin binI honp h3
    by_cases h1 : Hmin < peakHeightOf s binI
    · rw [stepScan_max W Hmin bin binI s h1 honp h3]
      exact ⟨rfl, rfl⟩
    · rw [stepScan_emit W Hmin bin binI s h1 honp]
      exact ⟨rfl, rfl⟩

theorem run_extrema_invariant_witness :
    cPeakState.onPeak = true ∧
    ¬ (((stepScan 3 20 4 90 cPeakState).1.maxHeight ≠ cPeakState.maxHeight ∨
        (stepScan 3 20 4 90 cPeakState).1.maxHBin ≠ cPeakState.maxHBin) ∧
       ((stepScan 3 20 4 90 cPeakState).1.minHeight ≠ cPeakState.minHeight ∨
        (stepScan 3 20 4 90 cPeakState).1.minHBin ≠ cPeakState.minHBin)) :=
  ⟨rfl, (run_extrema_invariant 3 20).2.1 cPeakState 4 90 rfl⟩

/-! ### C6: the flat-background scenario -/

/-- C6 counterexample: in the stated scenario (flat background 50,
`Hmin = 20`, `meanWindowSize = 3`, one run of 5 bins at 90) the scan
emits no record at all — with the cleared initial window the mean is 0,
so bin 0's height 50 already exceeds `Hmin`; the run opened there never
closes and is dropped at the beam's end. -/
theorem steady_scenario_cold_start_no_record :
    scanBeam 3 20 c6bins = [] ∧ ¬ (scanBeam 3 20 c6bins).length = 1 := by
  decide

/-- C6 (amended): starting instead from the scenario's intended steady
state — the window pre-filled with three background samples of 50 — the
scan of the run of five bins at 90 followed by a background bin emits
exactly one record, with threshold 90 = background mean 50 + minimum
height 40 and seed multiplier the first (and thus first maximal) bin of
the run. -/
theorem steady_scenario_prefilled_one_record :
    (runScan 3 20 0 [90, 90, 90, 90, 90, 50] c6steady).2.1 =
      [{ threshold := 90, maxHBin := 0, closeMean := 50,
         runHeights := [40, 40, 40, 40, 40], runStart := 0 }] := by
  decide

end ThetaRho
